import Mathlib

/-!
Shallow embedding of the API crawler in ci/ray_ci/doc/module.py.

The Python object graph is modelled explicitly: a `Graph` holds the entities
(modules, classes, functions) addressed by `NodeId`, together with the
`sys.modules` registry used by `inspect.getmodule`.  The crawler state
(`MState`) carries the graph (the heap), the `_visited` set and the `_apis`
list; `_walk` is embedded as the fuel-indexed function `walkF`, whose result is
`.ok`, `.exn` (an uncaught Python exception) or `.fuelOut` (the recursion did
not finish within the given fuel).

The embedding reproduces the source faithfully, including the line
`self._visited.add(module.__hash__)`: the set receives the bound method
`module.__hash__` (modelled by `PyRef.hashMethod`), while the membership test
`module in self._visited` looks for the module object itself
(`PyRef.obj`), so the test never succeeds.
-/

namespace RayDoc

abbrev NodeId := Nat

/-- Kind of a Python object as classified by inspect.ismodule / isclass /
isfunction in the walker. -/
inductive PyKind
  | module
  | cls
  | func
deriving DecidableEq

/-- A node of the runtime object graph.  For a module, `modName` is its
dunder name (the dotted path); for a class or function, `modName` is its
dunder module and `qualname` its dunder qualname.  `members` lists the
attributes getattr resolves (dir enumerates their names); `annotated` models
hasattr(x, "_annotated"); `annotatedValue` models x._annotated_type.value
when the attribute is present. -/
structure Entity where
  kind : PyKind
  modName : String
  qualname : String
  members : List (String × NodeId)
  annotated : Bool
  annotatedValue : Option String
deriving DecidableEq

/-- The Python heap visible to the crawler: the object graph plus the
sys.modules registry consulted by inspect.getmodule. -/
structure Graph where
  nodes : List Entity
  registry : List (String × NodeId)
deriving DecidableEq

def Graph.node? (g : Graph) (i : NodeId) : Option Entity := g.nodes.get? i

/-- Association-list lookup; the most recent binding is placed in front by
`dinsert`, so the first hit models Python dict lookup after overwrites. -/
def lookupStr {α : Type} : List (String × α) → String → Option α
  | [], _ => none
  | (k, v) :: rest, key => if k = key then some v else lookupStr rest key

/-- Python dict insertion (overwrite semantics): the new binding shadows any
older binding of the same key. -/
def dinsert {α : Type} (m : List (String × α)) (k : String) (v : α) :
    List (String × α) :=
  (k, v) :: m

/-- Python str.startswith. -/
def strStartsWith (s pre : String) : Bool := pre.data.isPrefixOf s.data

def lastSegAux : List Char → List Char → List Char
  | acc, [] => acc
  | acc, c :: rest => if c = '.' then lastSegAux [] rest else lastSegAux (acc ++ [c]) rest

/-- Last dot-separated segment of a dotted name (the dunder name of a class
or function is the last segment of its qualname). -/
def lastSegment (s : String) : String := String.mk (lastSegAux [] s.data)

/-- The dunder name attribute of an entity. -/
def dunderName (e : Entity) : String :=
  match e.kind with
  | .module => e.modName
  | _ => lastSegment e.qualname

def charListLt : List Char → List Char → Bool
  | _, [] => false
  | [], _ :: _ => true
  | a :: as, b :: bs => if a < b then true else if b < a then false else charListLt as bs

def strLeB (s t : String) : Bool := ! charListLt t.data s.data

def insertByName (p : String × NodeId) : List (String × NodeId) → List (String × NodeId)
  | [] => [p]
  | q :: rest => if strLeB p.1 q.1 then p :: q :: rest else q :: insertByName p rest

/-- dir(x): the attribute names of `x` in sorted order, paired with the nodes
getattr resolves them to. -/
def dirOf (e : Entity) : List (String × NodeId) := e.members.foldr insertByName []

/-- inspect.getmodule: a module is its own module; for a class or function the
dunder module name is looked up in sys.modules (None when absent). -/
def inspect_getmodule (g : Graph) (i : NodeId) (e : Entity) : Option NodeId :=
  match e.kind with
  | .module => some i
  | _ => lookupStr g.registry e.modName

/-- Module._is_valid_child: resolve the entity to its module; False when the
module cannot be resolved (hasattr(None, "__name__") is False); otherwise test
module.__name__.startswith(root.__name__). -/
def is_valid_child (g : Graph) (rootName : String) (i : NodeId) (e : Entity) : Bool :=
  match inspect_getmodule g i e with
  | none => false
  | some mi =>
    match g.node? mi with
    | none => false
    | some m => strStartsWith (dunderName m) rootName

/-- Module._is_api: valid child and hasattr(x, "_annotated"). -/
def is_api (g : Graph) (rootName : String) (i : NodeId) (e : Entity) : Bool :=
  is_valid_child g rootName i e && e.annotated

/-- Modelled from the spec: the closed annotation-category enumeration owned by
ci.ray_ci.doc.api (that file is not among the sampled sources); the spec names
the categories PUBLIC_API, DEVELOPER_API and DEPRECATED. -/
inductive AnnotationType
  | PUBLIC_API
  | DEVELOPER_API
  | DEPRECATED
deriving DecidableEq

/-- Modelled from the spec: Python enum construction AnnotationType(value);
`none` models the ValueError raised on a value outside the closed set. -/
def AnnotationType.ofValue : String → Option AnnotationType
  | "PUBLIC_API" => some .PUBLIC_API
  | "DEVELOPER_API" => some .DEVELOPER_API
  | "DEPRECATED" => some .DEPRECATED
  | _ => none

/-- Modelled from the spec: the code-kind enumeration of ci.ray_ci.doc.api. -/
inductive CodeType
  | CLASS
  | FUNCTION
deriving DecidableEq

/-- Modelled from the spec: the API record emitted by the crawler. -/
structure API where
  name : String
  annotation_type : AnnotationType
  code_type : CodeType
deriving DecidableEq

/-- Module._get_annotation_type: AnnotationType(x._annotated_type.value).
`none` models the uncaught exception (AttributeError when _annotated_type is
missing, ValueError when the value is unknown). -/
def get_annotation_type (e : Entity) : Option AnnotationType :=
  match e.annotatedValue with
  | none => none
  | some v => AnnotationType.ofValue v

/-- The canonical dotted identity f-string of Module._fullname and
Module._get_aliases: module dot qualname. -/
def fullnameStr (e : Entity) : String := e.modName ++ "." ++ e.qualname

/-- Module._fullname: alias of the full identity first, then alias of the
defining module, then the identity verbatim. -/
def fullname (aliases : List (String × String)) (e : Entity) : String :=
  match lookupStr aliases (fullnameStr e) with
  | some a => a
  | none =>
    match lookupStr aliases e.modName with
    | some a => a ++ "." ++ e.qualname
    | none => fullnameStr e

/-- Loop body of Module._get_aliases over dir(self._module); `none` models a
getattr that raises. -/
def get_aliasesGo (g : Graph) (rootName : String) :
    List (String × NodeId) → List (String × String) → Option (List (String × String))
  | [], acc => some acc
  | (_, cid) :: rest, acc =>
    match g.node? cid with
    | none => none
    | some a =>
      match a.kind with
      | .cls => get_aliasesGo g rootName rest (dinsert acc (fullnameStr a) (rootName ++ "." ++ a.qualname))
      | .func => get_aliasesGo g rootName rest (dinsert acc (fullnameStr a) (rootName ++ "." ++ a.qualname))
      | .module => get_aliasesGo g rootName rest acc

/-- Module._get_aliases: one pass over the root module's direct members;
classes and functions contribute fullname ↦ rootName.qualname. -/
def get_aliases (g : Graph) (root : Entity) : Option (List (String × String)) :=
  get_aliasesGo g root.modName (dirOf root) []

/-- A value stored in the _visited set: either an object itself or the bound
method object module.__hash__ that the source actually adds. -/
inductive PyRef
  | obj (i : NodeId)
  | hashMethod (i : NodeId)
deriving DecidableEq

/-- Crawler state: the heap, self._visited and self._apis. -/
structure MState where
  graph : Graph
  visited : List PyRef
  apis : List API
deriving DecidableEq

/-- Outcome of a crawl step: normal return, uncaught exception, or fuel
exhaustion (the recursion did not terminate within the allotted depth). -/
inductive WRes
  | ok (s : MState)
  | exn
  | fuelOut
deriving DecidableEq

/-- The body shared by the class and function branches of the member loop:
if self._is_api(attribute), append the API record; `none` models the
exception propagated out of _get_annotation_type. -/
def emitIfApi (rootName : String) (aliases : List (String × String)) (s : MState)
    (i : NodeId) (a : Entity) (ct : CodeType) : Option MState :=
  if is_api s.graph rootName i a then
    match get_annotation_type a with
    | none => none
    | some t =>
      some { s with apis := s.apis ++ [{ name := fullname aliases a, annotation_type := t, code_type := ct }] }
  else
    some s

/-- The `for child in dir(module)` loop of Module._walk, parametrised by the
recursive call `step` (the _walk at one less fuel).  A member that getattr
cannot resolve raises (`.exn`); a module member recurses; a class member is
emitted when annotated and then recursed into; a function member is emitted
when annotated and not recursed into. -/
def walkMembersWith (step : MState → NodeId → Entity → WRes) (rootName : String)
    (aliases : List (String × String)) : MState → List (String × NodeId) → WRes
  | s, [] => .ok s
  | s, (_, cid) :: rest =>
    match s.graph.node? cid with
    | none => .exn
    | some a =>
      match a.kind with
      | .module =>
        match step s cid a with
        | .ok s₂ => walkMembersWith step rootName aliases s₂ rest
        | .exn => .exn
        | .fuelOut => .fuelOut
      | .cls =>
        match emitIfApi rootName aliases s cid a .CLASS with
        | none => .exn
        | some s₁ =>
          match step s₁ cid a with
          | .ok s₂ => walkMembersWith step rootName aliases s₂ rest
          | .exn => .exn
          | .fuelOut => .fuelOut
      | .func =>
        match emitIfApi rootName aliases s cid a .FUNCTION with
        | none => .exn
        | some s₁ => walkMembersWith step rootName aliases s₁ rest

/-- Module._walk, fuel-indexed.  Statement by statement: the early return when
`module in self._visited` (testing the object, which the set never contains);
`self._visited.add(module.__hash__)` (adding the bound method);
`aliases = self._get_aliases()`; the _is_valid_child prune; the member loop. -/
def walkF (root : NodeId) : Nat → MState → NodeId → Entity → WRes
  | 0, _, _, _ => .fuelOut
  | fuel + 1, s, i, e =>
    if PyRef.obj i ∈ s.visited then .ok s
    else
      let s₁ : MState := { s with visited := s.visited ++ [PyRef.hashMethod i] }
      match s₁.graph.node? root with
      | none => .exn
      | some rootE =>
        match get_aliases s₁.graph rootE with
        | none => .exn
        | some aliases =>
          if is_valid_child s₁.graph rootE.modName i e then
            walkMembersWith (walkF root fuel) rootE.modName aliases s₁ (dirOf e)
          else .ok s₁

/-- Module.walk: self._walk(self._module). -/
def walkTop (root : NodeId) (fuel : Nat) (s : MState) : WRes :=
  match s.graph.node? root with
  | none => .exn
  | some e => walkF root fuel s root e

/-- Module.get_apis: self.walk(); return self._apis — the returned list is the
apis component of the resulting state. -/
def get_apis (root : NodeId) (fuel : Nat) (s : MState) : WRes :=
  walkTop root fuel s

/-- State of a freshly constructed Module object: empty _visited, empty _apis. -/
def initState (g : Graph) : MState := { graph := g, visited := [], apis := [] }

/-- The apis list of a normal result. -/
def resApis : WRes → Option (List API)
  | .ok s => some s.apis
  | _ => none

/-!
Invariants and auxiliary state transformers used by the proofs.
-/

/-- Every element of the visited set is a bound hash-method reference — the
only shape of value the source ever adds to self._visited. -/
def onlyHM (v : List PyRef) : Prop := ∀ r ∈ v, ∃ j, r = PyRef.hashMethod j

/-- The member filter of Module._get_aliases: only classes and functions can
be aliased. -/
def isClassOrFunc (a : Entity) : Prop :=
  a.kind = PyKind.cls ∨ a.kind = PyKind.func

instance (a : Entity) : Decidable (isClassOrFunc a) := by
  unfold isClassOrFunc
  infer_instance

/-- A record has the shape produced by the emit sites of the member loop:
it stems from some annotated entity of the graph, its code kind matches the
entity's kind, and its annotation category is the decoded marker value. -/
def EmitShaped (g : Graph) (r : API) : Prop :=
  ∃ i a v, g.node? i = some a ∧ a.annotated = true ∧ a.annotatedValue = some v ∧
    AnnotationType.ofValue v = some r.annotation_type ∧
    ((a.kind = PyKind.cls ∧ r.code_type = CodeType.CLASS) ∨
     (a.kind = PyKind.func ∧ r.code_type = CodeType.FUNCTION))

/-- What one crawl step preserves: the heap is untouched, the visited set only
grows by hash-method entries, and the apis list only grows by emit-shaped
records. -/
def Pres (s t : MState) : Prop :=
  t.graph = s.graph ∧
  (∃ w, t.visited = s.visited ++ w ∧ onlyHM w) ∧
  (∃ b, t.apis = s.apis ++ b ∧ ∀ r ∈ b, EmitShaped s.graph r)

/-- Prepend previously accumulated visited entries and apis to a state. -/
def shiftState (v : List PyRef) (b : List API) (s : MState) : MState :=
  { graph := s.graph, visited := v ++ s.visited, apis := b ++ s.apis }

def shiftRes (v : List PyRef) (b : List API) : WRes → WRes
  | .ok t => .ok (shiftState v b t)
  | .exn => .exn
  | .fuelOut => .fuelOut

/-!
Concrete object graphs used as test inputs.
-/

/-- Root module of the two-module cycle: module ray, with member b. -/
def cycA : Entity :=
  { kind := .module, modName := "ray", qualname := "", members := [("b", 1)],
    annotated := false, annotatedValue := none }

/-- Second module of the cycle: module ray.b, whose member a refers back. -/
def cycB : Entity :=
  { kind := .module, modName := "ray.b", qualname := "", members := [("a", 0)],
    annotated := false, annotatedValue := none }

/-- Two namespaces referencing each other: ray ↔ ray.b. -/
def cycG : Graph :=
  { nodes := [cycA, cycB], registry := [("ray", 0), ("ray.b", 1)] }

/-- Root module R re-exporting the class defined in R.internal. -/
def dupRoot : Entity :=
  { kind := .module, modName := "R", qualname := "", members := [("E", 2), ("internal", 1)],
    annotated := false, annotatedValue := none }

def dupInternal : Entity :=
  { kind := .module, modName := "R.internal", qualname := "",
    members := [("E", 2)], annotated := false, annotatedValue := none }

/-- An annotated class canonically defined at R.internal.E. -/
def dupE : Entity :=
  { kind := .cls, modName := "R.internal", qualname := "E", members := [],
    annotated := true, annotatedValue := some "PUBLIC_API" }

/-- Graph where the class at R.internal.E is reachable both as a direct member
of R and through the submodule R.internal. -/
def dupG : Graph :=
  { nodes := [dupRoot, dupInternal, dupE], registry := [("R", 0), ("R.internal", 1)] }

/-- The record the crawl of dupG emits. -/
def recRE : API :=
  { name := "R.E", annotation_type := .PUBLIC_API, code_type := .CLASS }

/-- The state the crawl of dupG ends in. -/
def dupFinal : MState :=
  { graph := dupG,
    visited := [PyRef.hashMethod 0, PyRef.hashMethod 2, PyRef.hashMethod 1, PyRef.hashMethod 2],
    apis := [recRE, recRE] }

/-- A class marked with a value outside the closed annotation set. -/
def badE : Entity :=
  { kind := .cls, modName := "R", qualname := "Bad", members := [],
    annotated := true, annotatedValue := some "WAT" }

def badRoot : Entity :=
  { kind := .module, modName := "R", qualname := "", members := [("bad", 1)],
    annotated := false, annotatedValue := none }

/-- Graph whose single member carries an undecodable marker. -/
def badG : Graph :=
  { nodes := [badRoot, badE], registry := [("R", 0)] }

def rayE : Entity :=
  { kind := .module, modName := "ray", qualname := "", members := [],
    annotated := false, annotatedValue := none }

/-- A module whose name extends the root name without a dot separator. -/
def ray2E : Entity :=
  { kind := .module, modName := "ray2", qualname := "", members := [],
    annotated := false, annotatedValue := none }

def ray2G : Graph :=
  { nodes := [rayE, ray2E], registry := [("ray", 0), ("ray2", 1)] }

/-!
Basic lemmas about the invariants.
-/

theorem onlyHM_nil : onlyHM [] := by
  intro r hr
  cases hr

theorem onlyHM_append {v w : List PyRef} (hv : onlyHM v) (hw : onlyHM w) :
    onlyHM (v ++ w) := by
  intro r hr
  rcases List.mem_append.mp hr with h | h
  · exact hv r h
  · exact hw r h

theorem onlyHM_single (i : NodeId) : onlyHM [PyRef.hashMethod i] := by
  intro r hr
  have h := List.mem_singleton.mp hr
  exact ⟨i, h⟩

theorem obj_not_mem_of_onlyHM {v : List PyRef} (hv : onlyHM v) (i : NodeId) :
    PyRef.obj i ∉ v := by
  intro hmem
  rcases hv _ hmem with ⟨j, hj⟩
  simp at hj

theorem Pres_refl (s : MState) : Pres s s :=
  ⟨Eq.refl _, ⟨[], by simp, onlyHM_nil⟩, ⟨[], by simp, by intro r hr; cases hr⟩⟩

theorem Pres.trans {s t u : MState} (h₁ : Pres s t) (h₂ : Pres t u) : Pres s u := by
  obtain ⟨hg₁, ⟨w₁, hv₁, ho₁⟩, ⟨b₁, ha₁, he₁⟩⟩ := h₁
  obtain ⟨hg₂, ⟨w₂, hv₂, ho₂⟩, ⟨b₂, ha₂, he₂⟩⟩ := h₂
  refine ⟨hg₂.trans hg₁, ⟨w₁ ++ w₂, ?_, onlyHM_append ho₁ ho₂⟩, ⟨b₁ ++ b₂, ?_, ?_⟩⟩
  · rw [hv₂, hv₁, List.append_assoc]
  · rw [ha₂, ha₁, List.append_assoc]
  · intro r hr
    rcases List.mem_append.mp hr with h | h
    · exact he₁ r h
    · have := he₂ r h
      rwa [hg₁] at this

theorem Pres.onlyHM_of {s t : MState} (h : Pres s t) (hs : onlyHM s.visited) :
    onlyHM t.visited := by
  obtain ⟨_, ⟨w, hv, ho⟩, _⟩ := h
  rw [hv]
  exact onlyHM_append hs ho

@[simp] theorem shiftState_graph (v : List PyRef) (b : List API) (s : MState) :
    (shiftState v b s).graph = s.graph := rfl

@[simp] theorem shiftState_visited (v : List PyRef) (b : List API) (s : MState) :
    (shiftState v b s).visited = v ++ s.visited := rfl

@[simp] theorem shiftState_apis (v : List PyRef) (b : List API) (s : MState) :
    (shiftState v b s).apis = b ++ s.apis := rfl

/-- The emit branch preserves the invariant: it touches only the apis list,
and the record it appends is emit-shaped. -/
theorem emitIfApi_pres {rootName : String} {aliases : List (String × String)}
    {s : MState} {i : NodeId} {a : Entity} {ct : CodeType} {s₁ : MState}
    (hnode : s.graph.node? i = some a)
    (hkind : (a.kind = PyKind.cls ∧ ct = CodeType.CLASS) ∨
      (a.kind = PyKind.func ∧ ct = CodeType.FUNCTION))
    (h : emitIfApi rootName aliases s i a ct = some s₁) :
    s₁.graph = s.graph ∧ s₁.visited = s.visited ∧ Pres s s₁ := by
  unfold emitIfApi at h
  by_cases hapi : is_api s.graph rootName i a = true
  · rw [if_pos hapi] at h
    cases hval : get_annotation_type a with
    | none =>
      rw [hval] at h
      cases h
    | some t =>
      rw [hval] at h
      injection h with h'
      subst h'
      refine ⟨rfl, rfl, rfl, ⟨[], by simp, onlyHM_nil⟩, ⟨[_], rfl, ?_⟩⟩
      intro r hr
      have hreq := List.mem_singleton.mp hr
      subst hreq
      have hann : a.annotated = true := by
        unfold is_api at hapi
        simp only [Bool.and_eq_true] at hapi
        exact hapi.2
      unfold get_annotation_type at hval
      cases hav : a.annotatedValue with
      | none =>
        rw [hav] at hval
        cases hval
      | some v =>
        rw [hav] at hval
        refine ⟨i, a, v, hnode, hann, hav, hval, ?_⟩
        rcases hkind with ⟨hk, hc⟩ | ⟨hk, hc⟩
        · exact Or.inl ⟨hk, hc⟩
        · exact Or.inr ⟨hk, hc⟩
  · rw [if_neg hapi] at h
    injection h with h'
    subst h'
    exact ⟨rfl, rfl, Pres_refl s⟩

/-- The member loop preserves the invariant whenever the recursive call does. -/
theorem wm_pres (step : MState → NodeId → Entity → WRes) (rootName : String)
    (aliases : List (String × String))
    (hstep : ∀ s i e t, step s i e = .ok t → Pres s t) :
    ∀ (l : List (String × NodeId)) (s t : MState),
      walkMembersWith step rootName aliases s l = .ok t → Pres s t := by
  intro l
  induction l with
  | nil =>
    intro s t h
    unfold walkMembersWith at h
    cases h
    exact Pres_refl _
  | cons p rest ih =>
    intro s t h
    obtain ⟨name, cid⟩ := p
    unfold walkMembersWith at h
    split at h
    · cases h
    · rename_i a hnode
      split at h
      · rename_i hk
        split at h
        · rename_i s₂ hst
          exact (hstep _ _ _ _ hst).trans (ih _ _ h)
        · cases h
        · cases h
      · rename_i hk
        split at h
        · cases h
        · rename_i s₁ hem
          have hp₁ := (emitIfApi_pres hnode (Or.inl ⟨hk, Eq.refl _⟩) hem).2.2
          split at h
          · rename_i s₂ hst
            exact hp₁.trans ((hstep _ _ _ _ hst).trans (ih _ _ h))
          · cases h
          · cases h
      · rename_i hk
        split at h
        · cases h
        · rename_i s₁ hem
          have hp₁ := (emitIfApi_pres hnode (Or.inr ⟨hk, Eq.refl _⟩) hem).2.2
          exact hp₁.trans (ih _ _ h)

/-- The walk preserves the invariant: heap untouched, visited grows only by
hash-method entries, apis grows only by emit-shaped records. -/
theorem walkF_pres (root : NodeId) :
    ∀ (fuel : Nat) (s : MState) (i : NodeId) (e : Entity) (t : MState),
      walkF root fuel s i e = .ok t → Pres s t := by
  intro fuel
  induction fuel with
  | zero =>
    intro s i e t h
    unfold walkF at h
    cases h
  | succ fuel ih =>
    intro s i e t h
    unfold walkF at h
    by_cases hmem : PyRef.obj i ∈ s.visited
    · rw [if_pos hmem] at h
      cases h
      exact Pres_refl _
    · rw [if_neg hmem] at h
      simp only at h
      have hps₁ : Pres s { s with visited := s.visited ++ [PyRef.hashMethod i] } :=
        ⟨rfl, ⟨[PyRef.hashMethod i], rfl, onlyHM_single i⟩,
          ⟨[], by simp, by intro r hr; cases hr⟩⟩
      split at h
      · cases h
      · rename_i rootE hroot
        split at h
        · cases h
        · rename_i aliases hal
          split at h
          · exact hps₁.trans (wm_pres _ _ _ (fun s i e t hh => ih s i e t hh) _ _ _ h)
          · cases h
            exact hps₁

/-!
Obliviousness: because the membership test of the visited set never succeeds
(the set holds only hash-method entries), the crawl behaves identically no
matter what visited entries and apis a previous crawl left in the state; the
previously accumulated lists are merely carried along as prefixes.
-/

theorem emitIfApi_shift (rootName : String) (aliases : List (String × String))
    (v : List PyRef) (b : List API) (s : MState) (i : NodeId) (a : Entity) (ct : CodeType) :
    emitIfApi rootName aliases (shiftState v b s) i a ct =
      (emitIfApi rootName aliases s i a ct).map (shiftState v b) := by
  unfold emitIfApi
  by_cases hapi : is_api s.graph rootName i a = true
  · simp only [shiftState_graph, hapi, if_true]
    cases hval : get_annotation_type a with
    | none => rfl
    | some t =>
      simp only [Option.map_some]
      simp [shiftState, List.append_assoc]
  · simp only [shiftState_graph, hapi, if_false]
    rfl

theorem wm_shift (step : MState → NodeId → Entity → WRes) (rootName : String)
    (aliases : List (String × String))
    (hpres : ∀ s i e t, step s i e = .ok t → Pres s t)
    (hshift : ∀ v b s i e, onlyHM v → onlyHM s.visited →
      step (shiftState v b s) i e = shiftRes v b (step s i e)) :
    ∀ (l : List (String × NodeId)) (s : MState) (v : List PyRef) (b : List API),
      onlyHM v → onlyHM s.visited →
      walkMembersWith step rootName aliases (shiftState v b s) l =
        shiftRes v b (walkMembersWith step rootName aliases s l) := by
  intro l
  induction l with
  | nil =>
    intro s v b hv hs
    rfl
  | cons p rest ih =>
    intro s v b hv hs
    obtain ⟨name, cid⟩ := p
    unfold walkMembersWith
    rw [shiftState_graph]
    cases hnode : s.graph.node? cid with
    | none => rfl
    | some a =>
      dsimp only
      cases hk : a.kind with
      | module =>
        dsimp only
        rw [hshift v b s cid a hv hs]
        cases hst : step s cid a with
        | ok s₂ =>
          have hs₂ : onlyHM s₂.visited := (hpres _ _ _ _ hst).onlyHM_of hs
          simp only [shiftRes]
          exact ih s₂ v b hv hs₂
        | exn => rfl
        | fuelOut => rfl
      | cls =>
        dsimp only
        rw [emitIfApi_shift]
        cases hem : emitIfApi rootName aliases s cid a .CLASS with
        | none => rfl
        | some s₁ =>
          have hs₁ : onlyHM s₁.visited := by
            have := (emitIfApi_pres hnode (Or.inl ⟨hk, Eq.refl _⟩) hem).2.1
            rwa [this]
          dsimp only [Option.map]
          rw [hshift v b s₁ cid a hv hs₁]
          cases hst : step s₁ cid a with
          | ok s₂ =>
            have hs₂ : onlyHM s₂.visited := (hpres _ _ _ _ hst).onlyHM_of hs₁
            dsimp only [shiftRes]
            exact ih s₂ v b hv hs₂
          | exn => rfl
          | fuelOut => rfl
      | func =>
        dsimp only
        rw [emitIfApi_shift]
        cases hem : emitIfApi rootName aliases s cid a .FUNCTION with
        | none => rfl
        | some s₁ =>
          have hs₁ : onlyHM s₁.visited := by
            have := (emitIfApi_pres hnode (Or.inr ⟨hk, Eq.refl _⟩) hem).2.1
            rwa [this]
          dsimp only [Option.map]
          exact ih s₁ v b hv hs₁

theorem walkF_shift (root : NodeId) :
    ∀ (fuel : Nat) (v : List PyRef) (b : List API) (s : MState) (i : NodeId) (e : Entity),
      onlyHM v → onlyHM s.visited →
      walkF root fuel (shiftState v b s) i e = shiftRes v b (walkF root fuel s i e) := by
  intro fuel
  induction fuel with
  | zero =>
    intro v b s i e hv hs
    rfl
  | succ fuel ih =>
    intro v b s i e hv hs
    have hnm : PyRef.obj i ∉ s.visited := obj_not_mem_of_onlyHM hs i
    have hnm2 : PyRef.obj i ∉ (shiftState v b s).visited := by
      rw [shiftState_visited]
      intro hmem
      rcases List.mem_append.mp hmem with h | h
      · exact obj_not_mem_of_onlyHM hv i h
      · exact hnm h
    unfold walkF
    rw [if_neg hnm2, if_neg hnm]
    simp only [shiftState_graph, shiftState_visited, shiftState_apis]
    rw [List.append_assoc v s.visited [PyRef.hashMethod i]]
    cases hroot : s.graph.node? root with
    | none => rfl
    | some rootE =>
      dsimp only
      cases hal : get_aliases s.graph rootE with
      | none => rfl
      | some aliases =>
        dsimp only
        by_cases hvc : is_valid_child s.graph rootE.modName i e = true
        · rw [if_pos hvc, if_pos hvc]
          exact wm_shift (walkF root fuel) rootE.modName aliases
            (fun s i e t hh => walkF_pres root fuel s i e t hh)
            (fun v b s i e hv hs => ih v b s i e hv hs)
            (dirOf e) { s with visited := s.visited ++ [PyRef.hashMethod i] } v b hv
            (onlyHM_append hs (onlyHM_single i))
        · rw [if_neg hvc, if_neg hvc]
          rfl

theorem walkTop_shift (root : NodeId) (fuel : Nat) (v : List PyRef) (b : List API)
    (s : MState) (hv : onlyHM v) (hs : onlyHM s.visited) :
    walkTop root fuel (shiftState v b s) = shiftRes v b (walkTop root fuel s) := by
  unfold walkTop
  rw [shiftState_graph]
  cases hroot : s.graph.node? root with
  | none => rfl
  | some e => exact walkF_shift root fuel v b s root e hv hs

theorem walkTop_pres (root : NodeId) (fuel : Nat) (s : MState) (t : MState)
    (h : walkTop root fuel s = .ok t) : Pres s t := by
  unfold walkTop at h
  split at h
  · cases h
  · exact walkF_pres root fuel s root _ t h

/-- On the cyclic two-module graph, the walk burns fuel forever: each of the
two modules re-enters the other because the visited test never succeeds. -/
theorem cyc_walk_fuelOut : ∀ fuel : Nat,
    walkF 0 fuel (initState cycG) 0 cycA = .fuelOut ∧
    walkF 0 fuel (initState cycG) 1 cycB = .fuelOut := by
  intro fuel
  induction fuel with
  | zero => exact ⟨rfl, rfl⟩
  | succ fuel ih =>
    constructor
    · have h1 : walkF 0 (fuel + 1) (initState cycG) 0 cycA =
          match walkF 0 fuel ⟨cycG, [PyRef.hashMethod 0], []⟩ 1 cycB with
          | .ok s₂ => walkMembersWith (walkF 0 fuel) "ray" [] s₂ []
          | .exn => .exn
          | .fuelOut => .fuelOut := rfl
      have hb : walkF 0 fuel (⟨cycG, [PyRef.hashMethod 0], []⟩ : MState) 1 cycB =
          shiftRes [PyRef.hashMethod 0] [] (walkF 0 fuel (initState cycG) 1 cycB) :=
        walkF_shift 0 fuel [PyRef.hashMethod 0] [] (initState cycG) 1 cycB
          (onlyHM_single 0) onlyHM_nil
      rw [h1, hb, ih.2]
      rfl
    · have h1 : walkF 0 (fuel + 1) (initState cycG) 1 cycB =
          match walkF 0 fuel ⟨cycG, [PyRef.hashMethod 1], []⟩ 0 cycA with
          | .ok s₂ => walkMembersWith (walkF 0 fuel) "ray" [] s₂ []
          | .exn => .exn
          | .fuelOut => .fuelOut := rfl
      have hb : walkF 0 fuel (⟨cycG, [PyRef.hashMethod 1], []⟩ : MState) 0 cycA =
          shiftRes [PyRef.hashMethod 1] [] (walkF 0 fuel (initState cycG) 0 cycA) :=
        walkF_shift 0 fuel [PyRef.hashMethod 1] [] (initState cycG) 0 cycA
          (onlyHM_single 1) onlyHM_nil
      rw [h1, hb, ih.1]
      rfl

theorem second_walk_doubles (g : Graph) (root : NodeId) (fuel : Nat) (s₁ : MState)
    (h : walkTop root fuel (initState g) = .ok s₁) :
    walkTop root fuel s₁ = .ok (shiftState s₁.visited s₁.apis s₁) := by
  obtain ⟨hg, ⟨w, hv, ho⟩, -⟩ := walkTop_pres root fuel (initState g) s₁ h
  have honly : onlyHM s₁.visited := by
    rw [hv]
    exact onlyHM_append onlyHM_nil ho
  have hs₁ : s₁ = shiftState s₁.visited s₁.apis (initState g) := by
    cases s₁ with
    | mk gr vis apis =>
      simp only [shiftState]
      simp [initState]
      simpa [initState] using hg
  calc walkTop root fuel s₁
      = walkTop root fuel (shiftState s₁.visited s₁.apis (initState g)) := by
        conv_lhs => rw [hs₁]
    _ = shiftRes s₁.visited s₁.apis (walkTop root fuel (initState g)) :=
        walkTop_shift root fuel s₁.visited s₁.apis (initState g) honly onlyHM_nil
    _ = .ok (shiftState s₁.visited s₁.apis s₁) := by rw [h]; rfl

/-!
Characterisation of the alias table.
-/

theorem lookupStr_dinsert {α : Type} (m : List (String × α)) (k : String) (v : α)
    (key : String) :
    lookupStr (dinsert m k v) key = if k = key then some v else lookupStr m key := rfl

theorem mem_insertByName (p q : String × NodeId) (l : List (String × NodeId)) :
    p ∈ insertByName q l ↔ p = q ∨ p ∈ l := by
  induction l with
  | nil => simp [insertByName]
  | cons r rest ih =>
    unfold insertByName
    by_cases hle : strLeB q.1 r.1 = true
    · rw [if_pos hle]
      simp only [List.mem_cons]
    · rw [if_neg hle]
      simp only [List.mem_cons, ih]
      tauto

theorem mem_dirOf (p : String × NodeId) (e : Entity) : p ∈ dirOf e ↔ p ∈ e.members := by
  unfold dirOf
  induction e.members with
  | nil => simp
  | cons q rest ih => simp [List.foldr, mem_insertByName, ih]

theorem get_aliasesGo_lookup (g : Graph) (rootName : String) :
    ∀ (l : List (String × NodeId)) (acc al : List (String × String)),
      get_aliasesGo g rootName l acc = some al →
      ∀ k : String,
        (lookupStr al k = lookupStr acc k ∧
          ∀ p ∈ l, ∀ a : Entity, g.node? p.2 = some a → isClassOrFunc a → fullnameStr a ≠ k) ∨
        (∃ p ∈ l, ∃ a : Entity, g.node? p.2 = some a ∧ isClassOrFunc a ∧ fullnameStr a = k ∧
          lookupStr al k = some (rootName ++ "." ++ a.qualname)) := by
  intro l
  induction l with
  | nil =>
    intro acc al h k
    unfold get_aliasesGo at h
    injection h with h'
    subst h'
    left
    exact ⟨rfl, by intro p hp; cases hp⟩
  | cons q rest ih =>
    intro acc al h k
    obtain ⟨name, cid⟩ := q
    unfold get_aliasesGo at h
    split at h
    · cases h
    · rename_i a hnode
      split at h
      · rename_i hk
        rcases ih _ _ h k with ⟨heq, hmiss⟩ | ⟨p, hp, b, hb, hcf, hfn, hlook⟩
        · by_cases hkey : fullnameStr a = k
          · right
            refine ⟨(name, cid), List.mem_cons_self _ _, a, hnode, Or.inl hk, hkey, ?_⟩
            rw [heq, lookupStr_dinsert, if_pos hkey]
          · left
            refine ⟨?_, ?_⟩
            · rw [heq, lookupStr_dinsert, if_neg hkey]
            · intro p hp b hb hcf
              rcases List.mem_cons.mp hp with hpq | hp'
              · subst hpq
                have hab : some a = some b := hnode.symm.trans hb
                injection hab with hab'
                subst hab'
                exact hkey
              · exact hmiss p hp' b hb hcf
        · right
          exact ⟨p, List.mem_cons_of_mem _ hp, b, hb, hcf, hfn, hlook⟩
      · rename_i hk
        rcases ih _ _ h k with ⟨heq, hmiss⟩ | ⟨p, hp, b, hb, hcf, hfn, hlook⟩
        · by_cases hkey : fullnameStr a = k
          · right
            refine ⟨(name, cid), List.mem_cons_self _ _, a, hnode, Or.inr hk, hkey, ?_⟩
            rw [heq, lookupStr_dinsert, if_pos hkey]
          · left
            refine ⟨?_, ?_⟩
            · rw [heq, lookupStr_dinsert, if_neg hkey]
            · intro p hp b hb hcf
              rcases List.mem_cons.mp hp with hpq | hp'
              · subst hpq
                have hab : some a = some b := hnode.symm.trans hb
                injection hab with hab'
                subst hab'
                exact hkey
              · exact hmiss p hp' b hb hcf
        · right
          exact ⟨p, List.mem_cons_of_mem _ hp, b, hb, hcf, hfn, hlook⟩
      · rename_i hk
        rcases ih _ _ h k with ⟨heq, hmiss⟩ | ⟨p, hp, b, hb, hcf, hfn, hlook⟩
        · left
          refine ⟨heq, ?_⟩
          intro p hp b hb hcf
          rcases List.mem_cons.mp hp with hpq | hp'
          · subst hpq
            have hab : some a = some b := hnode.symm.trans hb
            injection hab with hab'
            subst hab'
            rcases hcf with h1 | h1 <;> rw [hk] at h1 <;> cases h1
          · exact hmiss p hp' b hb hcf
        · right
          exact ⟨p, List.mem_cons_of_mem _ hp, b, hb, hcf, hfn, hlook⟩

theorem get_aliasesGo_graph_local (g g2 : Graph) (rootName : String) :
    ∀ (l : List (String × NodeId)) (acc : List (String × String)),
      (∀ p ∈ l, g.node? p.2 = g2.node? p.2) →
      get_aliasesGo g rootName l acc = get_aliasesGo g2 rootName l acc := by
  intro l
  induction l with
  | nil =>
    intro acc hagree
    rfl
  | cons q rest ih =>
    intro acc hagree
    obtain ⟨name, cid⟩ := q
    unfold get_aliasesGo
    have hq : g.node? cid = g2.node? cid := hagree (name, cid) (List.mem_cons_self _ _)
    rw [← hq]
    cases hnode : g.node? cid with
    | none => rfl
    | some a =>
      dsimp only
      cases a.kind <;>
        exact ih _ (fun p hp => hagree p (List.mem_cons_of_mem _ hp))

/-!
Claim theorems.
-/

/-- Claim C1: the spec states that walk terminates on every finite graph, even
when namespace A references B and B references A, visiting each namespace once.
On the code this fails: the source adds the bound method module.__hash__ to
the visited set but tests membership of the module object itself, so the test
never succeeds and the walk re-enters the cycle forever.  On the two-module
cycle ray ↔ ray.b the walk exhausts any amount of fuel. -/
theorem walk_cycle_never_terminates :
    ∀ fuel : Nat, walkTop 0 fuel (initState cycG) = .fuelOut := by
  intro fuel
  exact (cyc_walk_fuelOut fuel).1

/-- Claim C2: the spec states that an entity reachable via two member paths
appears at most once in the output.  On the code this fails: records are
appended before any visited check, and the visited test itself never succeeds,
so the class at R.internal.E, reachable both as R.E and through R.internal,
is emitted twice with identical identity. -/
theorem walk_reexport_duplicate_records :
    resApis (walkTop 0 20 (initState dupG)) = some [recRE, recRE] := by
  decide

/-- Claim C3 counterexample: the claim says the boundary decision is true iff
the namespace path equals the root path or extends it after a dot, so that
ray2 is outside root ray.  The code uses a plain startswith test:
_is_valid_child accepts the module ray2 under root ray even though ray2 is
neither ray nor a dotted descendant of ray. -/
theorem boundary_plain_prefix_cex :
    is_valid_child ray2G "ray" 1 ray2E = true ∧
      ¬("ray2" = "ray" ∨ strStartsWith "ray2" ("ray" ++ ".") = true) := by
  decide

/-- Claim C3 amended: when the entity resolves to a module m, the boundary
decision returns true iff m's dunder name has the root path as a plain string
prefix, dot separator not required. -/
theorem is_valid_child_iff_plain_prefix (g : Graph) (rootName : String) (i : NodeId)
    (e : Entity) (mi : NodeId) (m : Entity)
    (h₁ : inspect_getmodule g i e = some mi) (h₂ : g.node? mi = some m) :
    (is_valid_child g rootName i e = true ↔
      strStartsWith (dunderName m) rootName = true) := by
  unfold is_valid_child
  rw [h₁]
  dsimp only
  rw [h₂]

theorem is_valid_child_iff_plain_prefix_witness :
    is_valid_child ray2G "ray" 1 ray2E = true ↔
      strStartsWith (dunderName ray2E) "ray" = true :=
  is_valid_child_iff_plain_prefix ray2G "ray" 1 ray2E 1 ray2E (by decide) (by decide)

/-- Claim C4 counterexample: the claim says a marker value outside the known
categories is recovered by treating the entity as unmarked and the walker never
raises.  The code has no handler: on a graph whose single member carries the
marker value WAT, the whole walk raises (the ValueError from the enum
construction propagates). -/
theorem walk_bad_marker_raises :
    walkTop 0 20 (initState badG) = .exn := by
  decide

/-- Claim C4 amended: the walker has no recovery path.  Whenever the member
loop reaches an annotated class or function whose marker value does not decode
to a known category, the exception propagates: the loop neither skips the
member nor continues with its siblings, and the crawl returns no result. -/
theorem walk_bad_member_propagates (step : MState → NodeId → Entity → WRes)
    (rootName : String) (aliases : List (String × String)) (s : MState)
    (name : String) (cid : NodeId) (a : Entity) (rest : List (String × NodeId))
    (hnode : s.graph.node? cid = some a)
    (hkind : a.kind = PyKind.cls ∨ a.kind = PyKind.func)
    (hapi : is_api s.graph rootName cid a = true)
    (hval : get_annotation_type a = none) :
    walkMembersWith step rootName aliases s ((name, cid) :: rest) = .exn := by
  have hemit : ∀ ct, emitIfApi rootName aliases s cid a ct = none := by
    intro ct
    unfold emitIfApi
    rw [if_pos hapi, hval]
  unfold walkMembersWith
  rw [hnode]
  dsimp only
  rcases hkind with hk | hk <;> rw [hk] <;> dsimp only <;> rw [hemit]

theorem walk_bad_member_propagates_witness :
    walkMembersWith (fun s _ _ => WRes.ok s) "R" [] (initState badG) [("bad", 1)] = .exn :=
  walk_bad_member_propagates (fun s _ _ => WRes.ok s) "R" [] (initState badG) "bad" 1 badE []
    (by decide) (Or.inl (by decide)) (by decide) (by decide)

/-- Claim C5: the emitted name follows the exact precedence of _fullname: the
alias of the full canonical identity wins; otherwise the alias of the defining
module, dot the qualified name; otherwise the canonical identity verbatim; and
every record the emit site appends to the apis list carries a name computed by
_fullname. -/
theorem fullname_alias_precedence (aliases : List (String × String)) (e : Entity) :
    (∀ x, lookupStr aliases (fullnameStr e) = some x → fullname aliases e = x) ∧
    (lookupStr aliases (fullnameStr e) = none →
      ∀ x, lookupStr aliases e.modName = some x →
        fullname aliases e = x ++ "." ++ e.qualname) ∧
    (lookupStr aliases (fullnameStr e) = none → lookupStr aliases e.modName = none →
      fullname aliases e = fullnameStr e) ∧
    (∀ (rootName : String) (s : MState) (i : NodeId) (a : Entity) (ct : CodeType)
        (s₁ : MState) (r : API),
      emitIfApi rootName aliases s i a ct = some s₁ → r ∈ s₁.apis →
      r ∈ s.apis ∨ r.name = fullname aliases a) := by
  refine ⟨?_, ?_, ?_, ?_⟩
  · intro x hx
    unfold fullname
    rw [hx]
  · intro h1 x hx
    unfold fullname
    rw [h1]
    dsimp only
    rw [hx]
  · intro h1 h2
    unfold fullname
    rw [h1]
    dsimp only
    rw [h2]
  · intro rootName s i a ct s₁ r hemit hr
    unfold emitIfApi at hemit
    by_cases hapi : is_api s.graph rootName i a = true
    · rw [if_pos hapi] at hemit
      cases hval : get_annotation_type a with
      | none =>
        rw [hval] at hemit
        cases hemit
      | some t =>
        rw [hval] at hemit
        injection hemit with h'
        subst h'
        dsimp only at hr
        rcases List.mem_append.mp hr with h | h
        · exact Or.inl h
        · have hre := List.mem_singleton.mp h
          subst hre
          exact Or.inr rfl
    · rw [if_neg hapi] at hemit
      injection hemit with h'
      subst h'
      exact Or.inl hr

theorem fullname_alias_precedence_witness :
    fullname [("R.internal.E", "R.E")] dupE = "R.E" ∧
    fullname [("R.internal", "RR")] dupE = "RR" ++ "." ++ dupE.qualname ∧
    fullname [] dupE = fullnameStr dupE ∧
    (recRE ∈ (initState dupG).apis ∨
      recRE.name = fullname [("R.internal.E", "R.E")] dupE) :=
  ⟨(fullname_alias_precedence [("R.internal.E", "R.E")] dupE).1 "R.E" (by decide),
   (fullname_alias_precedence [("R.internal", "RR")] dupE).2.1 (by decide) "RR" (by decide),
   (fullname_alias_precedence [] dupE).2.2.1 rfl rfl,
   (fullname_alias_precedence [("R.internal.E", "R.E")] dupE).2.2.2 "R" (initState dupG) 2
     dupE CodeType.CLASS ⟨dupG, [], [recRE]⟩ recRE (by decide) (by decide)⟩

/-- Claim C6: the alias table is built from the root namespace's direct
members only.  An entry exists exactly for the canonical identities of the
direct class or function members; each such member's identity maps to the root
path dot the member's qualified name (under the presupposition that distinct
identities do not collide as dotted strings); and the table depends only on
the entities the direct members resolve to, never on anything deeper in the
graph. -/
theorem get_aliases_direct_members (g : Graph) (root : Entity) :
    (∀ al, get_aliases g root = some al →
      ((∀ k : String, (∃ v, lookupStr al k = some v) ↔
          ∃ p ∈ root.members, ∃ a : Entity, g.node? p.2 = some a ∧ isClassOrFunc a ∧
            k = fullnameStr a) ∧
        ((∀ p ∈ root.members, ∀ q ∈ root.members, ∀ a b : Entity,
            g.node? p.2 = some a → g.node? q.2 = some b →
            isClassOrFunc a → isClassOrFunc b →
            fullnameStr a = fullnameStr b → a.qualname = b.qualname) →
          ∀ p ∈ root.members, ∀ a : Entity, g.node? p.2 = some a → isClassOrFunc a →
            lookupStr al (fullnameStr a) = some (root.modName ++ "." ++ a.qualname)))) ∧
    (∀ g2 : Graph, (∀ p ∈ root.members, g.node? p.2 = g2.node? p.2) →
      get_aliases g root = get_aliases g2 root) := by
  constructor
  · intro al hal
    constructor
    · intro k
      constructor
      · rintro ⟨v, hv⟩
        rcases get_aliasesGo_lookup g root.modName (dirOf root) [] al hal k with
          ⟨heq, -⟩ | ⟨p, hp, a, ha, hcf, hfn, -⟩
        · rw [heq] at hv
          cases hv
        · exact ⟨p, (mem_dirOf p root).mp hp, a, ha, hcf, hfn.symm⟩
      · rintro ⟨p, hp, a, ha, hcf, hk⟩
        rcases get_aliasesGo_lookup g root.modName (dirOf root) [] al hal k with
          ⟨-, hmiss⟩ | ⟨q, hq, b, hb, hbcf, hbfn, hlook⟩
        · exact absurd hk.symm (hmiss p ((mem_dirOf p root).mpr hp) a ha hcf)
        · exact ⟨_, hlook⟩
    · intro hinj p hp a ha hcf
      rcases get_aliasesGo_lookup g root.modName (dirOf root) [] al hal (fullnameStr a) with
        ⟨-, hmiss⟩ | ⟨q, hq, b, hb, hbcf, hbfn, hlook⟩
      · exact absurd rfl (hmiss p ((mem_dirOf p root).mpr hp) a ha hcf)
      · have hq2 := (mem_dirOf q root).mp hq
        have hqn : b.qualname = a.qualname := hinj q hq2 p hp b a hb ha hbcf hcf hbfn
        rw [hqn] at hlook
        exact hlook
  · intro g2 hagree
    unfold get_aliases
    exact get_aliasesGo_graph_local g g2 root.modName (dirOf root) []
      (fun p hp => hagree p ((mem_dirOf p root).mp hp))

theorem get_aliases_direct_members_witness :
    ((∃ v, lookupStr [("R.internal.E", "R.E")] "R.internal.E" = some v) ↔
      ∃ p ∈ dupRoot.members, ∃ a : Entity, dupG.node? p.2 = some a ∧ isClassOrFunc a ∧
        "R.internal.E" = fullnameStr a) ∧
    lookupStr [("R.internal.E", "R.E")] (fullnameStr dupE) =
      some (dupRoot.modName ++ "." ++ dupE.qualname) ∧
    get_aliases dupG dupRoot = get_aliases dupG dupRoot := by
  have hinj : ∀ p ∈ dupRoot.members, ∀ q ∈ dupRoot.members, ∀ a b : Entity,
      dupG.node? p.2 = some a → dupG.node? q.2 = some b →
      isClassOrFunc a → isClassOrFunc b →
      fullnameStr a = fullnameStr b → a.qualname = b.qualname := by
    intro p hp q hq a b hpa hqb hacf hbcf hfn
    simp only [dupRoot, List.mem_cons, List.not_mem_nil, or_false] at hp hq
    rcases hp with hp | hp <;> rcases hq with hq | hq <;> subst hp <;> subst hq
    · have h2 : dupG.node? (2 : Nat) = some dupE := by decide
      have ha := Option.some.inj (h2.symm.trans hpa)
      have hb := Option.some.inj (h2.symm.trans hqb)
      rw [← ha, ← hb]
    · have h1 : dupG.node? (1 : Nat) = some dupInternal := by decide
      have hbv := Option.some.inj (h1.symm.trans hqb)
      subst hbv
      exact absurd hbcf (by decide)
    · have h1 : dupG.node? (1 : Nat) = some dupInternal := by decide
      have hav := Option.some.inj (h1.symm.trans hpa)
      subst hav
      exact absurd hacf (by decide)
    · have h1 : dupG.node? (1 : Nat) = some dupInternal := by decide
      have hav := Option.some.inj (h1.symm.trans hpa)
      subst hav
      exact absurd hacf (by decide)
  refine ⟨((get_aliases_direct_members dupG dupRoot).1 _ (by decide)).1 "R.internal.E",
    ((get_aliases_direct_members dupG dupRoot).1 _ (by decide)).2 hinj ("E", 2) (by decide)
      dupE (by decide) (Or.inl (by decide)),
    (get_aliases_direct_members dupG dupRoot).2 dupG (fun p hp => rfl)⟩

/-- Claim C7: the member loop dispatches on kind exactly as the spec says: a
module member is recursed into; a class member is checked for the marker
(emitting when marked) and then recursed into; a function member is checked
for the marker and never recursed into (its processing finishes with the emit
and goes straight on to the remaining siblings). -/
theorem walk_member_kind_dispatch (step : MState → NodeId → Entity → WRes)
    (rootName : String) (aliases : List (String × String)) (s : MState)
    (name : String) (cid : NodeId) (a : Entity) (rest : List (String × NodeId))
    (hnode : s.graph.node? cid = some a) :
    (a.kind = PyKind.module →
      walkMembersWith step rootName aliases s ((name, cid) :: rest) =
        match step s cid a with
        | .ok s₂ => walkMembersWith step rootName aliases s₂ rest
        | .exn => .exn
        | .fuelOut => .fuelOut) ∧
    (a.kind = PyKind.cls →
      walkMembersWith step rootName aliases s ((name, cid) :: rest) =
        match emitIfApi rootName aliases s cid a CodeType.CLASS with
        | none => .exn
        | some s₁ =>
          match step s₁ cid a with
          | .ok s₂ => walkMembersWith step rootName aliases s₂ rest
          | .exn => .exn
          | .fuelOut => .fuelOut) ∧
    (a.kind = PyKind.func →
      walkMembersWith step rootName aliases s ((name, cid) :: rest) =
        match emitIfApi rootName aliases s cid a CodeType.FUNCTION with
        | none => .exn
        | some s₁ => walkMembersWith step rootName aliases s₁ rest) := by
  refine ⟨?_, ?_, ?_⟩ <;> intro hk <;>
    (conv_lhs => unfold walkMembersWith) <;> rw [hnode] <;> dsimp only <;> rw [hk]

theorem walk_member_kind_dispatch_witness :
    walkMembersWith (fun s _ _ => WRes.ok s) "R" [] (initState dupG) [("E", 2)] =
      match emitIfApi "R" [] (initState dupG) 2 dupE CodeType.CLASS with
      | none => WRes.exn
      | some s₁ =>
        match (fun s _ _ => WRes.ok s) s₁ 2 dupE with
        | WRes.ok s₂ => walkMembersWith (fun s _ _ => WRes.ok s) "R" [] s₂ []
        | WRes.exn => WRes.exn
        | WRes.fuelOut => WRes.fuelOut :=
  (walk_member_kind_dispatch (fun s _ _ => WRes.ok s) "R" [] (initState dupG) "E" 2 dupE []
    (by decide)).2.1 (by decide)

/-- Claim C8: every record the walk adds to the apis list stems from some
annotated entity of the graph; the record's code kind is CLASS exactly when
that entity is a class and FUNCTION exactly when it is a function, and the
record's annotation category is the decoded value of the entity's marker. -/
theorem walk_records_kind_faithful (root : NodeId) (fuel : Nat) (s : MState)
    (i : NodeId) (e : Entity) (t : MState) (h : walkF root fuel s i e = .ok t) :
    ∀ r ∈ t.apis, r ∈ s.apis ∨ EmitShaped s.graph r := by
  intro r hr
  obtain ⟨hg, -, ⟨b, hb, hemit⟩⟩ := walkF_pres root fuel s i e t h
  rw [hb] at hr
  rcases List.mem_append.mp hr with h' | h'
  · exact Or.inl h'
  · exact Or.inr (hemit r h')

theorem walk_records_kind_faithful_witness :
    recRE ∈ (initState dupG).apis ∨ EmitShaped (initState dupG).graph recRE :=
  walk_records_kind_faithful 0 20 (initState dupG) 0 dupRoot dupFinal (by decide)
    recRE (by decide)

/-- Claim C9: the traversal is read-only over the object graph: a normally
returning walk leaves the heap component of the state exactly as it found it;
only the visited set and the apis list are written. -/
theorem walk_graph_readonly (root : NodeId) (fuel : Nat) (s t : MState)
    (h : walkTop root fuel s = .ok t) :
    t.graph = s.graph ∧
    (∃ w, t.visited = s.visited ++ w) ∧ (∃ b, t.apis = s.apis ++ b) := by
  obtain ⟨hg, ⟨w, hv, -⟩, ⟨b, hb, -⟩⟩ := walkTop_pres root fuel s t h
  exact ⟨hg, ⟨w, hv⟩, ⟨b, hb⟩⟩

theorem walk_graph_readonly_witness :
    dupFinal.graph = (initState dupG).graph ∧
    (∃ w, dupFinal.visited = (initState dupG).visited ++ w) ∧
    (∃ b, dupFinal.apis = (initState dupG).apis ++ b) :=
  walk_graph_readonly 0 20 (initState dupG) dupFinal (by decide)

/-- Claim C10: get_apis re-runs the walk on every call and appends into the
same list without resetting it: when a first call on a fresh Module state
returns normally with apis list L, a second call on the resulting state
returns a list of length twice the length of L whose first half is L. -/
theorem get_apis_not_idempotent (g : Graph) (root : NodeId) (fuel : Nat) (s₁ : MState)
    (h : get_apis root fuel (initState g) = .ok s₁) :
    ∃ s₂, get_apis root fuel s₁ = .ok s₂ ∧ s₂.apis = s₁.apis ++ s₁.apis ∧
      s₂.apis.length = 2 * s₁.apis.length ∧
      s₂.apis.take s₁.apis.length = s₁.apis := by
  refine ⟨shiftState s₁.visited s₁.apis s₁, second_walk_doubles g root fuel s₁ h, rfl, ?_, ?_⟩
  · show (s₁.apis ++ s₁.apis).length = 2 * s₁.apis.length
    rw [List.length_append, two_mul]
  · show (s₁.apis ++ s₁.apis).take s₁.apis.length = s₁.apis
    exact List.take_left _ _

theorem get_apis_not_idempotent_witness :
    ∃ s₂, get_apis 0 20 dupFinal = .ok s₂ ∧ s₂.apis = dupFinal.apis ++ dupFinal.apis ∧
      s₂.apis.length = 2 * dupFinal.apis.length ∧
      s₂.apis.take dupFinal.apis.length = dupFinal.apis :=
  get_apis_not_idempotent dupG 0 20 dupFinal (by decide)

end RayDoc
